import Mathlib

/-!
Shallow embedding of the `tap` PTY-multiplexer repository, covering the parts
of the source that the verified claims are about:

* `crates/tap-config/src/lib.rs` — `Keybind` and its `matches` / `matches_kitty`;
* `crates/tap-server/src/input.rs` — `InputProcessor` (`process`, `timeout_escape`);
* `crates/tap-server/src/kitty.rs` — `translate_csi_u_to_traditional`,
  `translate_all_csi_u`;
* `crates/tap-server/src/lib.rs` — the request dispatch of `handle_json_client`,
  `wait_for_child`, and the shell-resolution step of `run`.

Bytes are modelled as `Nat` with explicit `% 256` / masking where the Rust code
casts; byte strings are `List Nat`; Rust `String`s that are only carried around
opaquely stay `String`; fallible operations return `Option`.
-/

namespace Tap

/-! ## Byte-string helpers shared by the embedded functions -/

/-- First index of byte `t` in a list, mirroring Rust's
`iter().position(|&b| b == t)`. -/
def firstIdxOf (t : Nat) : List Nat → Option Nat
  | [] => none
  | b :: rest => if b = t then some 0 else (firstIdxOf t rest).map (· + 1)

/-- Split a byte string on a separator byte, mirroring Rust's `str::split(sep)`
for a one-byte ASCII separator: the result is never empty, and consecutive
separators produce empty segments. -/
def splitOnByte (sep : Nat) : List Nat → List (List Nat)
  | [] => [[]]
  | b :: rest =>
    if b = sep then [] :: splitOnByte sep rest
    else
      match splitOnByte sep rest with
      | [] => [[b]]
      | h :: t => (b :: h) :: t

/-- Accumulated numeric value of a run of ASCII-digit bytes, starting from `s`. -/
def valFrom (s : Nat) (l : List Nat) : Nat :=
  l.foldl (fun a b => a * 10 + (b - 48)) s

/-- Parse of a byte string as a `u32`, mirroring Rust's `str::parse::<u32>()`:
an optional leading `+`, then one or more ASCII digits, rejecting values that
do not fit in 32 bits. -/
def parseU32core (ds : List Nat) : Option Nat :=
  if ds ≠ [] ∧ (∀ d ∈ ds, 48 ≤ d ∧ d ≤ 57) ∧ valFrom 0 ds < 2 ^ 32 then
    some (valFrom 0 ds)
  else none

/-- Parse with the optional leading `+` sign (byte 43). -/
def parseU32 : List Nat → Option Nat
  | 43 :: rest => parseU32core rest
  | l => parseU32core l

/-- ASCII decimal digits of `n`, most significant first, as bytes; the fuel
argument (always instantiated with `n` itself) makes the division recursion
structural. -/
def decDigitsAux : Nat → Nat → List Nat
  | 0, _ => []
  | _, 0 => []
  | fuel + 1, n + 1 => decDigitsAux fuel ((n + 1) / 10) ++ [(n + 1) % 10 + 48]

/-- ASCII decimal representation of `n` as a byte string (`"0"` for zero).
This is the encoder used to build concrete CSI-u sequences; it is the
spec-side inverse of the byte-level `parseU32` above. -/
def natDecDigits (n : Nat) : List Nat :=
  if n = 0 then [48] else decDigitsAux n n

/-! ### Lemmas about the helpers -/

theorem valFrom_append (s : Nat) (l : List Nat) (d : Nat) :
    valFrom s (l ++ [d]) = valFrom s l * 10 + (d - 48) := by
  simp [valFrom]

theorem decDigitsAux_spec (fuel : Nat) :
    ∀ n ≤ fuel, ∀ s, valFrom s (decDigitsAux fuel n) =
      s * 10 ^ (decDigitsAux fuel n).length + n := by
  induction fuel with
  | zero =>
    intro n hn s
    interval_cases n
    simp [decDigitsAux, valFrom]
  | succ fuel ih =>
    intro n hn s
    match n with
    | 0 => simp [decDigitsAux, valFrom]
    | m + 1 =>
      have hdiv : (m + 1) / 10 ≤ fuel := by
        have : (m + 1) / 10 < m + 1 := Nat.div_lt_self (Nat.succ_pos m) (by omega)
        omega
      rw [decDigitsAux, valFrom_append, ih _ hdiv s]
      have hmod : (m + 1) % 10 + 48 - 48 = (m + 1) % 10 := by omega
      have hlen : (decDigitsAux fuel ((m + 1) / 10) ++ [(m + 1) % 10 + 48]).length
          = (decDigitsAux fuel ((m + 1) / 10)).length + 1 := by simp
      rw [hmod, hlen, pow_succ]
      have key : ∀ P q r s' : Nat, q * 10 + r = m + 1 →
          (s' * P + q) * 10 + r = s' * (P * 10) + (m + 1) := by
        intro P q r s' h
        calc (s' * P + q) * 10 + r = s' * (P * 10) + (q * 10 + r) := by ring
          _ = s' * (P * 10) + (m + 1) := by rw [h]
      exact key _ _ _ _ (by omega)

theorem decDigitsAux_digits (fuel : Nat) :
    ∀ n ≤ fuel, ∀ d ∈ decDigitsAux fuel n, 48 ≤ d ∧ d ≤ 57 := by
  induction fuel with
  | zero =>
    intro n hn d hd
    interval_cases n
    simp [decDigitsAux] at hd
  | succ fuel ih =>
    intro n hn d hd
    match n with
    | 0 => simp [decDigitsAux] at hd
    | m + 1 =>
      rw [decDigitsAux] at hd
      rcases List.mem_append.mp hd with h | h
      · exact ih _ (by
          have : (m + 1) / 10 < m + 1 := Nat.div_lt_self (Nat.succ_pos m) (by omega)
          omega) d h
      · have : d = (m + 1) % 10 + 48 := by simpa using h
        have := Nat.mod_lt (m + 1) (show 0 < 10 by omega)
        omega

theorem natDecDigits_digits (n : Nat) : ∀ d ∈ natDecDigits n, 48 ≤ d ∧ d ≤ 57 := by
  intro d hd
  unfold natDecDigits at hd
  by_cases h : n = 0
  · simp [h] at hd
    omega
  · simp [h] at hd
    exact decDigitsAux_digits n n le_rfl d hd

theorem natDecDigits_ne_nil (n : Nat) : natDecDigits n ≠ [] := by
  unfold natDecDigits
  by_cases h : n = 0
  · simp [h]
  · obtain ⟨m, rfl⟩ : ∃ m, n = m + 1 := ⟨n - 1, by omega⟩
    rw [if_neg h, decDigitsAux]
    simp

theorem valFrom_natDecDigits (n : Nat) : valFrom 0 (natDecDigits n) = n := by
  unfold natDecDigits
  by_cases h : n = 0
  · simp [h, valFrom]
  · simp [h]
    have := decDigitsAux_spec n n le_rfl 0
    simpa using this

theorem parseU32core_natDecDigits (n : Nat) (hn : n < 2 ^ 32) :
    parseU32core (natDecDigits n) = some n := by
  unfold parseU32core
  rw [if_pos]
  · rw [valFrom_natDecDigits]
  · exact ⟨natDecDigits_ne_nil n, natDecDigits_digits n, by rw [valFrom_natDecDigits]; exact hn⟩

theorem parseU32_natDecDigits (n : Nat) (hn : n < 2 ^ 32) :
    parseU32 (natDecDigits n) = some n := by
  have hd := natDecDigits_digits n
  have hne := natDecDigits_ne_nil n
  match hl : natDecDigits n with
  | [] => exact absurd hl hne
  | b :: rest =>
    have hb : 48 ≤ b ∧ b ≤ 57 := hd b (by rw [hl]; exact List.mem_cons_self b rest)
    have : b ≠ 43 := by omega
    rw [show parseU32 (b :: rest) = parseU32core (b :: rest) by
      unfold parseU32
      split
      · rename_i heq
        injection heq with h1 h2
        exact absurd h1 this
      · rfl]
    rw [← hl, parseU32core_natDecDigits n hn]

theorem firstIdxOf_append_not_mem (t : Nat) (l r : List Nat) (h : t ∉ l) :
    firstIdxOf t (l ++ r) = (firstIdxOf t r).map (· + l.length) := by
  induction l with
  | nil => simp [Option.map_id']
  | cons b rest ih =>
    have hb : b ≠ t := by
      intro hbt
      exact h (hbt ▸ List.mem_cons_self b rest)
    have hrest : t ∉ rest := fun hm => h (List.mem_cons_of_mem b hm)
    rw [List.cons_append, firstIdxOf, if_neg hb, ih hrest]
    cases firstIdxOf t r with
    | none => rfl
    | some k =>
      simp
      omega

theorem firstIdxOf_cons_self (t : Nat) (r : List Nat) :
    firstIdxOf t (t :: r) = some 0 := by
  simp [firstIdxOf]

theorem splitOnByte_ne_nil (sep : Nat) (l : List Nat) : splitOnByte sep l ≠ [] := by
  induction l with
  | nil => simp [splitOnByte]
  | cons b rest ih =>
    rw [splitOnByte]
    split
    · simp
    · match h : splitOnByte sep rest with
      | [] => exact absurd h ih
      | x :: xs => simp

theorem splitOnByte_no_sep (sep : Nat) (l : List Nat) (h : sep ∉ l) :
    splitOnByte sep l = [l] := by
  induction l with
  | nil => rfl
  | cons b rest ih =>
    have hb : b ≠ sep := by
      intro hbs
      exact h (hbs ▸ List.mem_cons_self b rest)
    have hrest : sep ∉ rest := fun hm => h (List.mem_cons_of_mem b hm)
    rw [splitOnByte, if_neg hb, ih hrest]

theorem splitOnByte_append_sep (sep : Nat) (a b : List Nat) (h : sep ∉ a) :
    splitOnByte sep (a ++ sep :: b) = a :: splitOnByte sep b := by
  induction a with
  | nil => simp [splitOnByte]
  | cons x rest ih =>
    have hx : x ≠ sep := by
      intro hxs
      exact h (hxs ▸ List.mem_cons_self x rest)
    have hrest : sep ∉ rest := fun hm => h (List.mem_cons_of_mem x hm)
    rw [List.cons_append, splitOnByte, if_neg hx, ih hrest]

/-! ## Keybinds (crates/tap-config/src/lib.rs)

A `char` is modelled as its Unicode codepoint (a `Nat`); Rust's `c as u8`
truncation is `% 256`.  The `str::from_utf8` step of `matches_kitty` is folded
into the byte-level `parseU32`: a byte string that is not valid UTF-8, or is
valid UTF-8 but not a decimal number, fails `parse::<u32>()` either way, and
both outcomes are `none` here. -/

/-- Parsed keybind representation (`Keybind` in tap-config). -/
inductive Keybind
  | alt (c : Nat)
  | ctrl (c : Nat)
  deriving DecidableEq

/-- Codepoint carried by a keybind (the `expected_char` of `matches_kitty`). -/
def Keybind.char : Keybind → Nat
  | .alt c => c
  | .ctrl c => c

/-- Modifier value accepted by `matches_kitty` for a keybind: Alt-only is
encoded as 3, Ctrl-only as 5 (modifier bits plus one). -/
def Keybind.kittyModifier : Keybind → Nat
  | .alt _ => 3
  | .ctrl _ => 5

/-- Embedding of `Keybind::matches_kitty`: match a Kitty keyboard protocol
sequence `CSI <codepoint> ; <modifiers> u` and return the number of bytes
consumed. -/
def Keybind.matchesKitty (kb : Keybind) (bytes : List Nat) : Option Nat :=
  match bytes with
  | 27 :: 91 :: _ =>
    if bytes.length < 4 then none
    else
      match firstIdxOf 117 bytes with
      | none => none
      | some uPos =>
        if uPos < 3 then none
        else
          let seq := (bytes.drop 2).take (uPos - 2)
          let parts := splitOnByte 59 seq
          match parts.head?.bind parseU32 with
          | none => none
          | some codepoint =>
            let modifiers := ((parts.get? 1).bind parseU32).getD 1
            if codepoint ≠ kb.char then none
            else if modifiers = kb.kittyModifier then some (uPos + 1)
            else none
  | _ => none

/-- Embedding of `Keybind::matches`: Kitty protocol first, then the legacy
encodings (Alt: `ESC` + literal byte; Ctrl: the character byte masked with
`0x1F`). -/
def Keybind.matches (kb : Keybind) (bytes : List Nat) : Option Nat :=
  match kb.matchesKitty bytes with
  | some consumed => some consumed
  | none =>
    match kb with
    | .alt c =>
      match bytes with
      | b0 :: b1 :: _ => if b0 = 27 ∧ b1 = c % 256 then some 2 else none
      | _ => none
    | .ctrl c =>
      match bytes with
      | b0 :: _ => if b0 = (c % 256) &&& 0x1f then some 1 else none
      | _ => none

/-! ## Input classifier (crates/tap-server/src/input.rs)

`KeybindAction` as declared in `input.rs` has only the `OpenEditor` variant,
yet both `lib.rs` (line 719) and `main.rs` (line 180) match on
`KeybindAction::Detach`.  The embedding carries both variants so that the
absence of any `Detach` binding in `InputProcessor::new` is expressible. -/

inductive KeybindAction
  | openEditor
  | detach
  deriving DecidableEq

inductive InputResult
  | passthrough (bytes : List Nat)
  | action (a : KeybindAction)
  | needMore
  deriving DecidableEq

/-- State of `InputProcessor` (the escape timeout duration, which the
classifier only hands back to its caller, is omitted). -/
structure InputProcessor where
  keybinds : List (Keybind × KeybindAction)
  pendingEscape : Bool
  deriving DecidableEq

/-- First keybind in the list whose `matches` accepts the bytes, with the
number of bytes consumed — the `for (keybind, action) in &self.keybinds` loop
of `InputProcessor::process`. -/
def findMatch : List (Keybind × KeybindAction) → List Nat → Option (Nat × KeybindAction)
  | [], _ => none
  | (kb, a) :: rest, bytes =>
    match kb.matches bytes with
    | some n => some (n, a)
    | none => findMatch rest bytes

/-- The `effective_bytes` of `InputProcessor::process`: a pending escape is
prepended to the freshly read bytes. -/
def effectiveBytes (p : InputProcessor) (bytes : List Nat) : List Nat :=
  if p.pendingEscape then 27 :: bytes else bytes

/-- Embedding of `InputProcessor::process`.  In the source, an action is
returned whether or not the match consumed the whole buffer (trailing bytes
are dropped by policy), so the consumed count does not affect the result. -/
def InputProcessor.process (p : InputProcessor) (bytes : List Nat) :
    InputResult × InputProcessor :=
  if bytes = [] then
    if p.pendingEscape then (.passthrough [27], { p with pendingEscape := false })
    else (.passthrough [], p)
  else
    match findMatch p.keybinds (effectiveBytes p bytes) with
    | some (_, a) => (.action a, { p with pendingEscape := false })
    | none =>
      if effectiveBytes p bytes = [27] then (.needMore, { p with pendingEscape := true })
      else (.passthrough (effectiveBytes p bytes), { p with pendingEscape := false })

/-- Embedding of `InputProcessor::timeout_escape`. -/
def InputProcessor.timeoutEscape (p : InputProcessor) : InputResult × InputProcessor :=
  if p.pendingEscape then (.passthrough [27], { p with pendingEscape := false })
  else (.passthrough [], p)

/-- Embedding of `InputProcessor::new` given the already-parsed editor keybind:
the configured list holds exactly one pair, binding the editor keybind to
`OpenEditor` (`Keybind::parse` of the configuration string is elided; its
result may be any keybind). -/
def newInputProcessor (editorKeybind : Keybind) : InputProcessor :=
  { keybinds := [(editorKeybind, .openEditor)], pendingEscape := false }

/-! ## Enhanced (CSI-u) and legacy key encodings — spec side -/

/-- Enhanced CSI-u encoding of a keybind's key with an explicit modifier value:
`ESC [ <codepoint> ; <modifiers> u`. -/
def enhancedEncode (c modifiers : Nat) : List Nat :=
  27 :: 91 :: (natDecDigits c ++ 59 :: (natDecDigits modifiers ++ [117]))

/-- Legacy encoding of a keybind: Alt is `0x1B` followed by the literal
character byte, Ctrl is the character byte masked with `0x1F`. -/
def legacyEncode : Keybind → List Nat
  | .alt c => [27, c % 256]
  | .ctrl c => [(c % 256) &&& 0x1f]

/-! ## Keyboard-protocol translator (crates/tap-server/src/kitty.rs) -/

/-- Rust's `u8::to_ascii_lowercase`. -/
def toAsciiLower (c : Nat) : Nat := if 65 ≤ c ∧ c ≤ 90 then c + 32 else c

/-- Rust's `u8::to_ascii_uppercase`. -/
def toAsciiUpper (c : Nat) : Nat := if 97 ≤ c ∧ c ≤ 122 then c - 32 else c

/-- Emission half of `translate_csi_u_to_traditional`: given a parsed
codepoint, raw modifier value and consumed-byte count, produce the traditional
byte sequence for the key, exactly as the source does after its parsing steps.
The source's plain-letter case (`is_letter` with neither Ctrl nor Alt) falls
through to the printable-ASCII block, which is mirrored here by guarding the
letter branches with the Ctrl/Alt flags. -/
def csiUEmit (codepoint modifiers consumed : Nat) : Option (List Nat × Nat) :=
  let modBits := modifiers - 1
  let hasShift := modBits &&& 1 ≠ 0
  let hasAlt := modBits &&& 2 ≠ 0
  let hasCtrl := modBits &&& 4 ≠ 0
  if codepoint = 27 then some ([27], consumed)
  else if codepoint = 13 then
    some ((if hasAlt then [27] else []) ++ [13], consumed)
  else if codepoint = 9 then
    if hasShift then
      some ((if hasAlt then [27] else []) ++ [27, 91, 90], consumed)
    else some ((if hasAlt then [27] else []) ++ [9], consumed)
  else if codepoint = 127 then
    some ((if hasAlt then [27] else []) ++ [if hasCtrl then 8 else 127], consumed)
  else
    let isLetter :=
      (65 ≤ codepoint ∧ codepoint ≤ 90) ∨ (97 ≤ codepoint ∧ codepoint ≤ 122)
    if isLetter ∧ hasCtrl then
      some ((if hasAlt then [27] else []) ++ [toAsciiLower codepoint &&& 0x1f], consumed)
    else if isLetter ∧ hasAlt then
      some ([27, if hasShift then toAsciiUpper codepoint else toAsciiLower codepoint],
        consumed)
    else if codepoint < 128 then
      if hasCtrl then
        if codepoint = 91 then some ([27], consumed)
        else if codepoint = 92 then some ([28], consumed)
        else if codepoint = 93 then some ([29], consumed)
        else if codepoint = 94 ∨ codepoint = 54 then some ([30], consumed)
        else if codepoint = 95 ∨ codepoint = 45 then some ([31], consumed)
        else if codepoint = 64 ∨ codepoint = 50 then some ([0], consumed)
        else some ((if hasAlt then [27] else []) ++ [codepoint], consumed)
      else if hasAlt then some ([27, codepoint], consumed)
      else some ([codepoint], consumed)
    else none

/-- Embedding of `translate_csi_u_to_traditional`: translate one Kitty CSI-u
sequence at the front of the buffer to traditional terminal input, returning
the translated bytes and the number of input bytes consumed.  The parsing of
the header, `u` terminator, codepoint and modifier value is as in the source;
the emission is `csiUEmit` above. -/
def translate_csi_u_to_traditional (data : List Nat) : Option (List Nat × Nat) :=
  match data with
  | 27 :: 91 :: b2 :: _ =>
    if data.length < 4 then none
    else
      match firstIdxOf 117 data with
      | none => none
      | some uPos =>
        if uPos < 3 then none
        else if b2 = 62 ∨ b2 = 60 ∨ b2 = 61 ∨ b2 = 63 then none
        else
          match (splitOnByte 59 ((data.drop 2).take (uPos - 2))).head?.bind parseU32 with
          | none => none
          | some codepoint =>
            csiUEmit codepoint
              ((((splitOnByte 59 ((data.drop 2).take (uPos - 2))).get? 1).bind
                  parseU32).getD 1)
              (uPos + 1)
  | _ => none

/-- Worker for `translate_all_csi_u`.  The source advances an index `i` by
`consumed` after a match; here the already-consumed tail is tracked by a skip
counter (a matched sequence always consumes at least its four header bytes, so
`consumed - 1` skips the remainder after the leading `ESC`). -/
def translateAllGo : List Nat → Nat → List Nat
  | [], _ => []
  | _ :: rest, skip + 1 => translateAllGo rest skip
  | b :: rest, 0 =>
    if b = 27 ∧ rest.head? = some 91 then
      match translate_csi_u_to_traditional (b :: rest) with
      | some (translated, consumed) => translated ++ translateAllGo rest (consumed - 1)
      | none => b :: translateAllGo rest 0
    else b :: translateAllGo rest 0

/-- Embedding of `translate_all_csi_u`: translate all CSI-u sequences in a
buffer, passing unmatched bytes through verbatim. -/
def translate_all_csi_u (data : List Nat) : List Nat := translateAllGo data 0

/-- Spec-side predicate: the buffer contains an `ESC [` pair with some `u`
byte anywhere after the `ESC` — a conservative byte-level reading of
"contains an `ESC [ ... u` sequence". -/
def hasCsiUPattern : List Nat → Bool
  | [] => false
  | b :: rest =>
    if b = 27 ∧ rest.head? = some 91 ∧ 117 ∈ rest then true
    else hasCsiUPattern rest

/-- Modifier value of the enhanced keyboard encoding: actual modifier bits
(1 = shift, 2 = alt, 4 = ctrl) plus one. -/
def modifierValue (shift alt ctrl : Bool) : Nat :=
  1 + (if shift then 1 else 0) + (if alt then 2 else 0) + (if ctrl then 4 else 0)

/-- Enhanced CSI-u encoding of a key with modifier flags; the modifier field
is omitted when no modifier is held, as terminals do. -/
def enhancedEncodeKey (c : Nat) (shift alt ctrl : Bool) : List Nat :=
  if modifierValue shift alt ctrl = 1 then 27 :: 91 :: (natDecDigits c ++ [117])
  else 27 :: 91 ::
    (natDecDigits c ++ 59 :: (natDecDigits (modifierValue shift alt ctrl) ++ [117]))

/-- Traditional byte encoding of a key per the specification: Ctrl+letter is
the letter masked with `0x1F` (ESC-prefixed if Alt), Alt+letter is ESC plus
the letter (upper if Shift else lower), a plain key is the literal byte. -/
def legacyEncodeKey (c : Nat) (shift alt ctrl : Bool) : List Nat :=
  if ctrl then (if alt then [27] else []) ++ [toAsciiLower c &&& 0x1f]
  else if alt then [27, if shift then toAsciiUpper c else toAsciiLower c]
  else [c]

/-! ## Wire protocol (crates/tap-protocol/src/lib.rs)

`Inject`'s payload is carried as its UTF-8 bytes (`data.into_bytes()` in the
dispatch); scrollback content is an opaque `String`. -/

inductive Request
  | getScrollback (lines : Option Nat)
  | getCursor
  | inject (data : List Nat)
  | getSize
  | subscribe
  | attach (rows cols : Nat)
  | input (data : List Nat)
  | resize (rows cols : Nat)
  deriving DecidableEq

inductive Response
  | scrollback (content : String)
  | cursor (row col : Nat)
  | size (rows cols : Nat)
  | output (data : List Nat)
  | subscribed
  | attached (scrollback : String)
  | sessionEnded (exitCode : Int)
  | ok
  | error (message : String)
  deriving DecidableEq

/-! ## Per-connection handler (handle_json_client, crates/tap-server/src/lib.rs)

Shared-state pieces the handler can reach: the scrollback store (read-only
here, abstracted as its `get_lines` / `cursor_position` views), the
process-wide `MASTER_FD` slot, the PTY window size it controls via ioctl, the
attach slot, the input channel, and the session-ended flag. -/

structure ServerState where
  /-- View of `SCROLLBACK.read().get_lines(n)`. -/
  getLines : Option Nat → String
  /-- View of `SCROLLBACK.read().cursor_position()`. -/
  cursor : Nat × Nat
  /-- Whether `MASTER_FD.get()` is populated. -/
  masterFd : Option Unit
  /-- Window size last set on the PTY master (rows, cols). -/
  ptySize : Nat × Nat
  /-- The attach slot: `Some` holds the id of the attached connection. -/
  attachedClient : Option Nat
  /-- Messages enqueued on the input channel so far. -/
  inputQueue : List (List Nat)
  /-- Whether `input_tx.send` fails (receiver dropped). -/
  inputClosed : Bool
  /-- The `session_ended` atomic flag. -/
  ended : Bool

/-- Embedding of the request dispatch inside `handle_json_client`, for the
connection with id `cid`.  On a successful `Attach` the PTY is resized first
(only when a master fd exists) and the scrollback snapshot is read afterwards,
as in the source. -/
def handleRequest (cid : Nat) (req : Request) (st : ServerState) :
    Response × ServerState :=
  match req with
  | .getScrollback lines => (.scrollback (st.getLines lines), st)
  | .getCursor => (.cursor st.cursor.1 st.cursor.2, st)
  | .inject data =>
    if st.inputClosed then (.error "session ended", st)
    else (.ok, { st with inputQueue := st.inputQueue ++ [data] })
  | .getSize =>
    match st.masterFd with
    | some _ => (.size st.ptySize.1 st.ptySize.2, st)
    | none => (.error "no master FD", st)
  | .subscribe => (.subscribed, st)
  | .attach rows cols =>
    match st.attachedClient with
    | some _ => (.error "session already has attached client", st)
    | none =>
      let st1 := { st with attachedClient := some cid }
      let st2 :=
        match st1.masterFd with
        | some _ => { st1 with ptySize := (rows, cols) }
        | none => st1
      (.attached (st2.getLines none), st2)
  | .input data =>
    if st.inputClosed then (.error "session ended", st)
    else (.ok, { st with inputQueue := st.inputQueue ++ [data] })
  | .resize rows cols =>
    match st.masterFd with
    | some _ => (.ok, { st with ptySize := (rows, cols) })
    | none => (.error "no master FD", st)

/-- One observable event in a connection handler's select loop. -/
inductive ConnEvent
  | request (req : Request)
  /-- A read that does not parse as a request (`serde_json` failure): the
  handler logs and continues. -/
  | invalid
  /-- `read_buf` returned `Ok(0)`: peer closed, handler breaks. -/
  | readEof
  /-- A broadcast message was received (`output_rx.recv()` returned `Ok`). -/
  | bcast (data : List Nat)
  /-- The broadcast receiver lagged: the handler continues silently. -/
  | bcastLagged
  /-- The broadcast channel closed: the handler breaks. -/
  | bcastClosed
  deriving DecidableEq

/-- Embedding of the `handle_json_client` loop over a trace of events,
returning every response written to the connection and the final shared
state.  The session-ended flag is checked at the top of each iteration; a
successful `Attach` switches the connection to binary attach mode, leaving
this JSON loop (the source `return`s out of it after the inner forwarding
loops), so the run stops there.  Socket writes are assumed to succeed. -/
def handlerRun (cid : Nat) : ServerState → List ConnEvent → List Response × ServerState
  | st, [] => if st.ended then ([.sessionEnded 0], st) else ([], st)
  | st, ev :: rest =>
    if st.ended then ([.sessionEnded 0], st)
    else
      match ev with
      | .request req =>
        match (handleRequest cid req st).1 with
        | .attached s => ([.attached s], (handleRequest cid req st).2)
        | resp =>
          (resp :: (handlerRun cid (handleRequest cid req st).2 rest).1,
            (handlerRun cid (handleRequest cid req st).2 rest).2)
      | .invalid => handlerRun cid st rest
      | .readEof => ([], st)
      | .bcast data =>
        (.output data :: (handlerRun cid st rest).1, (handlerRun cid st rest).2)
      | .bcastLagged => handlerRun cid st rest
      | .bcastClosed => ([], st)

/-! ## Child reaping (wait_for_child, crates/tap-server/src/lib.rs) -/

/-- Relevant cases of `nix::sys::wait::WaitStatus`. -/
inductive WaitStatus
  /-- `Exited(pid, code)`. -/
  | exited (code : Int)
  /-- `Signaled(pid, sig, core_dumped)`; the signal is its (positive) number. -/
  | signaled (sig : Nat) (coreDumped : Bool)
  /-- Any other status (`Stopped`, `Continued`, ...). -/
  | otherStatus
  deriving DecidableEq

/-- Outcome of one `waitpid` call. -/
inductive WaitOutcome
  | ok (ws : WaitStatus)
  | errEintr
  | errOther
  deriving DecidableEq

/-- Embedding of `wait_for_child` over the successive outcomes of `waitpid`:
the loop returns the first decisive outcome; `none` means the given trace
never produced one (the source loop would still be waiting). -/
def wait_for_child : List WaitOutcome → Option Int
  | [] => none
  | o :: rest =>
    match o with
    | .ok (.exited code) => some code
    | .ok (.signaled sig _) => some (128 + (sig : Int))
    | .ok .otherStatus => wait_for_child rest
    | .errEintr => wait_for_child rest
    | .errOther => some 1

/-! ## Shell resolution (run, crates/tap-server/src/lib.rs lines 420-432)

Strings are lists of characters here so that suffixes and basenames can be
reasoned about; Rust's `str::ends_with` is the list-suffix relation. -/

/-- Characters of a string literal. -/
def chars (s : String) : List Char := s.data

/-- Embedding of the shell-invocation step of `run` for an empty command
vector: the command actually executed for the resolved `$SHELL`. -/
def resolveShellCommand (shell : List Char) : List (List Char) :=
  if chars "/nu" <:+ shell ∨ chars "/nushell" <:+ shell then [shell, chars "-l"]
  else if chars "/bash" <:+ shell ∨ chars "/zsh" <:+ shell then [shell, chars "-i"]
  else [shell]

/-- Embedding of the full command resolution: a non-empty configured command
is used as-is, otherwise `$SHELL` (default `/bin/sh`) is resolved. -/
def resolveCommand (command : List (List Char)) (shellEnv : Option (List Char)) :
    List (List Char) :=
  if command = [] then resolveShellCommand (shellEnv.getD (chars "/bin/sh"))
  else command

/-- Spec-side basename: the segment of a path after its last `/` (the whole
string when it has no `/`). -/
def basenameOf : List Char → List Char
  | [] => []
  | c :: rest => if c = '/' ∨ '/' ∈ rest then basenameOf rest else c :: rest

/-! ## Supporting lemmas for the claims -/

theorem handleRequest_ne_sessionEnded (cid : Nat) (req : Request) (st : ServerState)
    (code : Int) : (handleRequest cid req st).1 ≠ .sessionEnded code := by
  intro hcontra
  cases req <;> simp only [handleRequest] at hcontra
  case getScrollback => exact Response.noConfusion hcontra
  case getCursor => exact Response.noConfusion hcontra
  case inject => split at hcontra <;> exact Response.noConfusion hcontra
  case getSize => cases hm : st.masterFd <;> simp [hm] at hcontra
  case subscribe => exact Response.noConfusion hcontra
  case attach => cases ha : st.attachedClient <;> simp [ha] at hcontra
  case input => split at hcontra <;> exact Response.noConfusion hcontra
  case resize => cases hm : st.masterFd <;> simp [hm] at hcontra

theorem basenameOf_no_slash (l : List Char) (h : '/' ∉ l) : basenameOf l = l := by
  match l with
  | [] => rfl
  | c :: rest =>
    have hc : ¬(c = '/' ∨ '/' ∈ rest) := by
      intro hor
      rcases hor with hor | hor
      · exact h (hor ▸ List.mem_cons_self c rest)
      · exact h (List.mem_cons_of_mem c hor)
    rw [basenameOf, if_neg hc]

theorem suffix_slash_iff (name : List Char) (hname : '/' ∉ name) (shell : List Char) :
    ('/' :: name <:+ shell) ↔ ('/' ∈ shell ∧ basenameOf shell = name) := by
  induction shell with
  | nil =>
    constructor
    · intro h
      have := h.length_le
      simp at this
    · intro h
      simp at h
  | cons c rest ih =>
    rw [List.suffix_cons_iff]
    constructor
    · intro h
      rcases h with h | h
      · injection h with h1 h2
        subst h1
        subst h2
        refine ⟨List.mem_cons_self _ _, ?_⟩
        rw [basenameOf, if_pos (Or.inl rfl)]
        exact basenameOf_no_slash name hname
      · obtain ⟨hmem, hbase⟩ := ih.mp h
        refine ⟨List.mem_cons_of_mem c hmem, ?_⟩
        rw [basenameOf, if_pos (Or.inr hmem)]
        exact hbase
    · rintro ⟨hmem, hbase⟩
      by_cases hrest : '/' ∈ rest
      · right
        rw [basenameOf, if_pos (Or.inr hrest)] at hbase
        exact ih.mpr ⟨hrest, hbase⟩
      · left
        have hc : c = '/' := by
          rcases List.mem_cons.mp hmem with h | h
          · exact h.symm
          · exact absurd h hrest
        rw [basenameOf, if_pos (Or.inl hc)] at hbase
        rw [basenameOf_no_slash rest hrest] at hbase
        rw [hc, hbase]

theorem firstIdxOf_enhanced (dc dm : List Nat)
    (hdc : ∀ d ∈ dc, 48 ≤ d ∧ d ≤ 57) (hdm : ∀ d ∈ dm, 48 ≤ d ∧ d ≤ 57) :
    firstIdxOf 117 (27 :: 91 :: (dc ++ 59 :: (dm ++ [117])))
      = some (3 + dc.length + dm.length) := by
  have hmem : 117 ∉ 27 :: 91 :: (dc ++ 59 :: dm) := by
    intro hmem
    simp at hmem
    rcases hmem with h | h
    · have := hdc 117 h
      omega
    · have := hdm 117 h
      omega
  have hsplit : 27 :: 91 :: (dc ++ 59 :: (dm ++ [117]))
      = (27 :: 91 :: (dc ++ 59 :: dm)) ++ [117] := by simp
  rw [hsplit, firstIdxOf_append_not_mem 117 _ _ hmem, firstIdxOf_cons_self]
  simp
  omega

theorem firstIdxOf_enhanced_plain (dc : List Nat)
    (hdc : ∀ d ∈ dc, 48 ≤ d ∧ d ≤ 57) :
    firstIdxOf 117 (27 :: 91 :: (dc ++ [117])) = some (2 + dc.length) := by
  have hmem : 117 ∉ 27 :: 91 :: dc := by
    intro hmem
    simp at hmem
    have := hdc 117 hmem
    omega
  have hsplit : 27 :: 91 :: (dc ++ [117]) = (27 :: 91 :: dc) ++ [117] := by simp
  rw [hsplit, firstIdxOf_append_not_mem 117 _ _ hmem, firstIdxOf_cons_self]
  simp
  omega

theorem split_enhanced (dc dm : List Nat)
    (hdc : ∀ d ∈ dc, 48 ≤ d ∧ d ≤ 57) (hdm : ∀ d ∈ dm, 48 ≤ d ∧ d ≤ 57) :
    splitOnByte 59 (dc ++ 59 :: dm) = [dc, dm] := by
  rw [splitOnByte_append_sep 59 _ _ (by intro h; have := hdc 59 h; omega),
    splitOnByte_no_sep 59 _ (by intro h; have := hdm 59 h; omega)]

theorem take_len_append (l r : List Nat) (n : Nat) (h : l.length = n) :
    (l ++ r).take n = l := by
  subst h
  exact List.take_left l r

theorem matchesKitty_enhanced (kb : Keybind) (hc : kb.char < 2 ^ 32) :
    kb.matchesKitty (enhancedEncode kb.char kb.kittyModifier)
      = some (enhancedEncode kb.char kb.kittyModifier).length := by
  have hdc := natDecDigits_digits kb.char
  have hdm := natDecDigits_digits kb.kittyModifier
  have hm32 : kb.kittyModifier < 2 ^ 32 := by
    cases kb <;> simp [Keybind.kittyModifier]
  have hlen : (enhancedEncode kb.char kb.kittyModifier).length
      = 4 + (natDecDigits kb.char).length + (natDecDigits kb.kittyModifier).length := by
    simp [enhancedEncode]
    omega
  rw [hlen]
  rw [show enhancedEncode kb.char kb.kittyModifier
      = 27 :: 91 :: (natDecDigits kb.char ++ 59 :: (natDecDigits kb.kittyModifier ++ [117]))
    from rfl]
  rw [Keybind.matchesKitty]
  rw [if_neg (show ¬(27 :: 91 :: (natDecDigits kb.char
      ++ 59 :: (natDecDigits kb.kittyModifier ++ [117]))).length < 4 by simp; omega)]
  rw [firstIdxOf_enhanced _ _ hdc hdm]
  simp only []
  rw [if_neg (by omega)]
  have htake : List.take
      (3 + (natDecDigits kb.char).length + (natDecDigits kb.kittyModifier).length - 2)
      (natDecDigits kb.char ++ 59 :: (natDecDigits kb.kittyModifier ++ [117]))
      = natDecDigits kb.char ++ 59 :: natDecDigits kb.kittyModifier := by
    have hre : natDecDigits kb.char ++ 59 :: (natDecDigits kb.kittyModifier ++ [117])
        = (natDecDigits kb.char ++ 59 :: natDecDigits kb.kittyModifier) ++ [117] := by simp
    rw [hre]
    apply take_len_append
    simp
    omega
  rw [show List.drop 2 (27 :: 91 :: (natDecDigits kb.char
      ++ 59 :: (natDecDigits kb.kittyModifier ++ [117])))
      = natDecDigits kb.char ++ 59 :: (natDecDigits kb.kittyModifier ++ [117]) from rfl]
  rw [htake, split_enhanced _ _ hdc hdm]
  simp [parseU32_natDecDigits kb.char hc, parseU32_natDecDigits kb.kittyModifier hm32]
  omega

theorem matchesKitty_short (kb : Keybind) (bytes : List Nat) (h : bytes.length < 4) :
    kb.matchesKitty bytes = none := by
  unfold Keybind.matchesKitty
  split
  · rename_i b2 tl
    rw [if_pos h]
  · rfl

theorem matches_legacy_alt (c : Nat) :
    (Keybind.alt c).matches (legacyEncode (.alt c)) = some 2 := by
  unfold Keybind.matches
  rw [matchesKitty_short _ _ (by simp [legacyEncode])]
  simp [legacyEncode]

theorem matches_legacy_ctrl (c : Nat) :
    (Keybind.ctrl c).matches (legacyEncode (.ctrl c)) = some 1 := by
  unfold Keybind.matches
  rw [matchesKitty_short _ _ (by simp [legacyEncode])]
  simp [legacyEncode]

theorem matches_enhanced (kb : Keybind) (hc : kb.char < 2 ^ 32) :
    kb.matches (enhancedEncode kb.char kb.kittyModifier)
      = some (enhancedEncode kb.char kb.kittyModifier).length := by
  unfold Keybind.matches
  rw [matchesKitty_enhanced kb hc]

theorem translate_enhanced_mod (c m : Nat) (hc : c < 2 ^ 32) (hm : m < 2 ^ 32) :
    translate_csi_u_to_traditional
        (27 :: 91 :: (natDecDigits c ++ 59 :: (natDecDigits m ++ [117])))
      = csiUEmit c m (4 + (natDecDigits c).length + (natDecDigits m).length) := by
  have hdc := natDecDigits_digits c
  have hdm := natDecDigits_digits m
  obtain ⟨d0, dtl, hd⟩ : ∃ d0 dtl, natDecDigits c = d0 :: dtl := by
    cases h : natDecDigits c with
    | nil => exact absurd h (natDecDigits_ne_nil c)
    | cons a b => exact ⟨a, b, rfl⟩
  have hd0 : 48 ≤ d0 ∧ d0 ≤ 57 :=
    hdc d0 (by rw [hd]; exact List.mem_cons_self _ _)
  have hp : parseU32 (d0 :: dtl) = some c := by
    rw [← hd]
    exact parseU32_natDecDigits c hc
  rw [hd] at hdc ⊢
  have hfind := firstIdxOf_enhanced (d0 :: dtl) (natDecDigits m) hdc hdm
  have htake : List.take (3 + (d0 :: dtl).length + (natDecDigits m).length - 2)
      ((d0 :: dtl) ++ 59 :: (natDecDigits m ++ [117]))
      = (d0 :: dtl) ++ 59 :: natDecDigits m := by
    have hre : (d0 :: dtl) ++ 59 :: (natDecDigits m ++ [117])
        = ((d0 :: dtl) ++ 59 :: natDecDigits m) ++ [117] := by simp
    rw [hre]
    apply take_len_append
    simp
    omega
  have hsplitp := split_enhanced (d0 :: dtl) (natDecDigits m) hdc hdm
  simp only [List.cons_append] at hfind htake hsplitp ⊢
  rw [translate_csi_u_to_traditional]
  rw [if_neg (by simp; omega)]
  rw [hfind]
  simp only []
  rw [if_neg (by omega)]
  rw [if_neg (by omega)]
  rw [show List.drop 2 (27 :: 91 :: d0 :: (dtl ++ 59 :: (natDecDigits m ++ [117])))
      = d0 :: (dtl ++ 59 :: (natDecDigits m ++ [117])) from rfl]
  rw [htake, hsplitp]
  simp [hp, parseU32_natDecDigits m hm]
  congr 1
  omega

theorem translate_enhanced_plain (c : Nat) (hc : c < 2 ^ 32) :
    translate_csi_u_to_traditional (27 :: 91 :: (natDecDigits c ++ [117]))
      = csiUEmit c 1 (3 + (natDecDigits c).length) := by
  have hdc := natDecDigits_digits c
  obtain ⟨d0, dtl, hd⟩ : ∃ d0 dtl, natDecDigits c = d0 :: dtl := by
    cases h : natDecDigits c with
    | nil => exact absurd h (natDecDigits_ne_nil c)
    | cons a b => exact ⟨a, b, rfl⟩
  have hd0 : 48 ≤ d0 ∧ d0 ≤ 57 :=
    hdc d0 (by rw [hd]; exact List.mem_cons_self _ _)
  have hp : parseU32 (d0 :: dtl) = some c := by
    rw [← hd]
    exact parseU32_natDecDigits c hc
  rw [hd] at hdc ⊢
  have hfind := firstIdxOf_enhanced_plain (d0 :: dtl) hdc
  have htake : List.take (2 + (d0 :: dtl).length - 2) ((d0 :: dtl) ++ [117])
      = d0 :: dtl := by
    apply take_len_append
    simp
  have hsplitp := splitOnByte_no_sep 59 (d0 :: dtl)
    (by intro hmem; have := hdc 59 hmem; omega)
  simp only [List.cons_append] at hfind htake hsplitp ⊢
  rw [translate_csi_u_to_traditional]
  rw [if_neg (by simp)]
  rw [hfind]
  simp only []
  rw [if_neg (by simp only [List.length_cons]; omega)]
  rw [if_neg (by omega)]
  rw [show List.drop 2 (27 :: 91 :: d0 :: (dtl ++ [117])) = d0 :: (dtl ++ [117]) from rfl]
  rw [htake, hsplitp]
  simp [hp]
  congr 1
  omega

theorem csiUEmit_letter (c : Nat)
    (hl : (65 ≤ c ∧ c ≤ 90) ∨ (97 ≤ c ∧ c ≤ 122)) (shift alt ctrl : Bool)
    (consumed : Nat) :
    csiUEmit c (modifierValue shift alt ctrl) consumed
      = some (legacyEncodeKey c shift alt ctrl, consumed) := by
  have h27 : c ≠ 27 := by rcases hl with ⟨h, _⟩ | ⟨h, _⟩ <;> omega
  have h13 : c ≠ 13 := by rcases hl with ⟨h, _⟩ | ⟨h, _⟩ <;> omega
  have h9 : c ≠ 9 := by rcases hl with ⟨h, _⟩ | ⟨h, _⟩ <;> omega
  have h127 : c ≠ 127 := by rcases hl with ⟨_, h⟩ | ⟨_, h⟩ <;> omega
  have h128 : c < 128 := by rcases hl with ⟨_, h⟩ | ⟨_, h⟩ <;> omega
  cases shift <;> cases alt <;> cases ctrl <;>
    simp [csiUEmit, modifierValue, legacyEncodeKey, h27, h13, h9, h127, h128, hl,
      show (0 : Nat) &&& 1 = 0 from by decide, show (0 : Nat) &&& 2 = 0 from by decide,
      show (0 : Nat) &&& 4 = 0 from by decide,
      show (1 : Nat) &&& 1 = 1 from by decide, show (1 : Nat) &&& 2 = 0 from by decide,
      show (1 : Nat) &&& 4 = 0 from by decide,
      show (2 : Nat) &&& 1 = 0 from by decide, show (2 : Nat) &&& 2 = 2 from by decide,
      show (2 : Nat) &&& 4 = 0 from by decide,
      show (3 : Nat) &&& 1 = 1 from by decide, show (3 : Nat) &&& 2 = 2 from by decide,
      show (3 : Nat) &&& 4 = 0 from by decide,
      show (4 : Nat) &&& 1 = 0 from by decide, show (4 : Nat) &&& 2 = 0 from by decide,
      show (4 : Nat) &&& 4 = 4 from by decide,
      show (5 : Nat) &&& 1 = 1 from by decide, show (5 : Nat) &&& 2 = 0 from by decide,
      show (5 : Nat) &&& 4 = 4 from by decide,
      show (6 : Nat) &&& 1 = 0 from by decide, show (6 : Nat) &&& 2 = 2 from by decide,
      show (6 : Nat) &&& 4 = 4 from by decide,
      show (7 : Nat) &&& 1 = 1 from by decide, show (7 : Nat) &&& 2 = 2 from by decide,
      show (7 : Nat) &&& 4 = 4 from by decide]

theorem csiUEmit_plain (c consumed : Nat) (hc : c < 128) :
    csiUEmit c 1 consumed = some ([c], consumed) := by
  by_cases h27 : c = 27
  · subst h27
    simp [csiUEmit]
  by_cases h13 : c = 13
  · subst h13
    simp [csiUEmit]
  by_cases h9 : c = 9
  · subst h9
    simp [csiUEmit]
  by_cases h127 : c = 127
  · subst h127
    simp [csiUEmit]
  · simp [csiUEmit, h27, h13, h9, h127, hc]

theorem translate_encodeKey (c : Nat) (shift alt ctrl : Bool) (hc : c < 2 ^ 32) :
    translate_csi_u_to_traditional (enhancedEncodeKey c shift alt ctrl)
      = csiUEmit c (modifierValue shift alt ctrl)
          (enhancedEncodeKey c shift alt ctrl).length := by
  by_cases hm : modifierValue shift alt ctrl = 1
  · rw [show enhancedEncodeKey c shift alt ctrl = 27 :: 91 :: (natDecDigits c ++ [117])
      from by rw [enhancedEncodeKey, if_pos hm]]
    rw [translate_enhanced_plain c hc, hm]
    congr 1
    simp
    omega
  · have hm32 : modifierValue shift alt ctrl < 2 ^ 32 := by
      cases shift <;> cases alt <;> cases ctrl <;> simp [modifierValue]
    rw [show enhancedEncodeKey c shift alt ctrl
        = 27 :: 91 :: (natDecDigits c ++ 59 :: (natDecDigits
            (modifierValue shift alt ctrl) ++ [117]))
      from by rw [enhancedEncodeKey, if_neg hm]]
    rw [translate_enhanced_mod c (modifierValue shift alt ctrl) hc hm32]
    congr 1
    simp
    omega

theorem firstIdxOf_eq_none (t : Nat) (l : List Nat) (h : t ∉ l) :
    firstIdxOf t l = none := by
  induction l with
  | nil => rfl
  | cons b rest ih =>
    have hb : b ≠ t := by
      intro hbt
      exact h (hbt ▸ List.mem_cons_self b rest)
    rw [firstIdxOf, if_neg hb, ih (fun hm => h (List.mem_cons_of_mem b hm))]
    rfl

theorem translate_none_of_no_u (data : List Nat) (h : 117 ∉ data) :
    translate_csi_u_to_traditional data = none := by
  unfold translate_csi_u_to_traditional
  split
  · rw [firstIdxOf_eq_none 117 _ h]
    split <;> rfl
  · rfl

/-! ## The claims -/

/-- Claim C1: an `Attach` request handled while the attach slot already holds
a client is answered with `Error { "session already has attached client" }`
and the slot keeps its original occupant; with the slot empty, `Attach`
occupies the slot for the requesting connection and is answered
`Attached` carrying the current scrollback. -/
theorem attach_slot_transition (cid rows cols : Nat) (st : ServerState) :
    (handleRequest cid (.attach rows cols) st).1 =
      (match st.attachedClient with
       | some _ => .error "session already has attached client"
       | none => .attached (st.getLines none))
    ∧ (handleRequest cid (.attach rows cols) st).2.attachedClient =
      (match st.attachedClient with
       | some orig => some orig
       | none => some cid) := by
  cases h : st.attachedClient <;>
    simp only [handleRequest, h] <;>
    cases hm : st.masterFd <;> simp_all

/-- Claim C2: `wait_for_child` skips over `EINTR` results and non-decisive
wait statuses, then computes the host exit code from the first decisive
outcome: the raw code for a normal exit, `128 + signo` for a signal death,
and `1` for any other `waitpid` error. -/
theorem wait_for_child_exit_code (skips t : List WaitOutcome)
    (hskips : ∀ o ∈ skips, o = .errEintr ∨ o = .ok .otherStatus) :
    (∀ code, wait_for_child (skips ++ .ok (.exited code) :: t) = some code)
    ∧ (∀ sig core,
        wait_for_child (skips ++ .ok (.signaled sig core) :: t) = some (128 + (sig : Int)))
    ∧ wait_for_child (skips ++ .errOther :: t) = some 1 := by
  induction skips with
  | nil => refine ⟨fun code => rfl, fun sig core => rfl, rfl⟩
  | cons o rest ih =>
    have ho := hskips o (List.mem_cons_self o rest)
    have hrest : ∀ x ∈ rest, x = .errEintr ∨ x = .ok .otherStatus :=
      fun x hx => hskips x (List.mem_cons_of_mem o hx)
    obtain ⟨ih1, ih2, ih3⟩ := ih hrest
    rcases ho with rfl | rfl
    · exact ⟨fun code => by rw [List.cons_append, wait_for_child]; exact ih1 code,
        fun sig core => by rw [List.cons_append, wait_for_child]; exact ih2 sig core,
        by rw [List.cons_append, wait_for_child]; exact ih3⟩
    · exact ⟨fun code => by rw [List.cons_append, wait_for_child]; exact ih1 code,
        fun sig core => by rw [List.cons_append, wait_for_child]; exact ih2 sig core,
        by rw [List.cons_append, wait_for_child]; exact ih3⟩

/-- Witness for C2 at a concrete trace: one `EINTR` and one non-decisive
status before the decisive outcome. -/
theorem wait_for_child_exit_code_w :
    wait_for_child [.errEintr, .ok .otherStatus, .ok (.exited 3)] = some 3
    ∧ wait_for_child [.errEintr, .ok .otherStatus, .ok (.signaled 9 false)] = some (128 + (9 : Int))
    ∧ wait_for_child [.errEintr, .ok .otherStatus, .errOther] = some 1 := by
  obtain ⟨h1, h2, h3⟩ :=
    wait_for_child_exit_code [.errEintr, .ok .otherStatus] [] (by decide)
  exact ⟨h1 3, h2 9 false, h3⟩

/-- A connection-handler state as freshly accepted: slot empty, nothing
queued, session running. -/
def freshState : ServerState :=
  { getLines := fun _ => "", cursor := (0, 0), masterFd := some (), ptySize := (24, 80),
    attachedClient := none, inputQueue := [], inputClosed := false, ended := false }

/-- Claim C3 (refuted — the code forwards broadcast output to every
connection): a connection that has sent no `Subscribe` request still receives
an unsolicited `Output { data }` message as soon as its broadcast receiver
yields data, and dispatching `Subscribe` has no effect on any handler state —
the `Subscribed` acknowledgement is the request's only consequence. -/
theorem unsubscribed_connection_receives_output :
    (handlerRun 0 freshState [ConnEvent.bcast [88]]).1 = [Response.output [88]]
    ∧ ∀ cid st, handleRequest cid .subscribe st = (.subscribed, st) := by
  exact ⟨rfl, fun cid st => rfl⟩

/-- Claim C4: for a keybind of form `Alt(c)` or `Ctrl(c)` (with `c` a valid
codepoint), both the enhanced CSI-u encoding (codepoint `c`, modifiers 3 for
Alt-only / 5 for Ctrl-only) and the legacy encoding (Alt: `0x1B` then the
literal character byte; Ctrl: the byte masked with `0x1F`) are accepted by
`Keybind::matches`, and feeding either encoding to a classifier in `Idle`
configured with that keybind yields the bound action. -/
theorem keybind_both_encodings_trigger (kb : Keybind) (act : KeybindAction)
    (hc : kb.char < 1114112) :
    (InputProcessor.process { keybinds := [(kb, act)], pendingEscape := false }
        (enhancedEncode kb.char kb.kittyModifier)).1 = .action act
    ∧ (InputProcessor.process { keybinds := [(kb, act)], pendingEscape := false }
        (legacyEncode kb)).1 = .action act := by
  have hc32 : kb.char < 2 ^ 32 := lt_trans hc (by norm_num)
  constructor
  · unfold InputProcessor.process
    rw [if_neg (by simp [enhancedEncode])]
    have heff : effectiveBytes { keybinds := [(kb, act)], pendingEscape := false }
        (enhancedEncode kb.char kb.kittyModifier)
        = enhancedEncode kb.char kb.kittyModifier := rfl
    rw [heff, findMatch, matches_enhanced kb hc32]
  · unfold InputProcessor.process
    rw [if_neg (by cases kb <;> simp [legacyEncode])]
    have heff : effectiveBytes { keybinds := [(kb, act)], pendingEscape := false }
        (legacyEncode kb) = legacyEncode kb := rfl
    rw [heff, findMatch]
    cases kb with
    | alt c => rw [matches_legacy_alt c]
    | ctrl c => rw [matches_legacy_ctrl c]

/-- Witness for C4 at the default `Alt-e` keybind (codepoint 101). -/
theorem keybind_both_encodings_trigger_w :
    (InputProcessor.process
        { keybinds := [(.alt 101, .openEditor)], pendingEscape := false }
        (enhancedEncode (Keybind.alt 101).char (Keybind.alt 101).kittyModifier)).1
      = .action .openEditor
    ∧ (InputProcessor.process
        { keybinds := [(.alt 101, .openEditor)], pendingEscape := false }
        (legacyEncode (.alt 101))).1 = .action .openEditor :=
  keybind_both_encodings_trigger (.alt 101) .openEditor
    (by simp [Keybind.char])

/-- Claim C5: a pending-escape episode — the classifier in `Idle` (no pending
escape) that receives exactly `[0x1B]` and matches no keybind emits `NeedMore`
and enters `PendingEscape`; a following `timeout_escape()` emits
`Passthrough([0x1B])` (exactly one ESC byte) and returns the classifier to
`Idle`. -/
theorem pending_escape_episode (kbs : List (Keybind × KeybindAction))
    (h : findMatch kbs [27] = none) :
    InputProcessor.process { keybinds := kbs, pendingEscape := false } [27]
      = (.needMore, { keybinds := kbs, pendingEscape := true })
    ∧ ∀ kbs2, InputProcessor.timeoutEscape { keybinds := kbs2, pendingEscape := true }
      = (.passthrough [27], { keybinds := kbs2, pendingEscape := false }) := by
  constructor
  · simp [InputProcessor.process, effectiveBytes, h]
  · intro kbs2
    simp [InputProcessor.timeoutEscape]

/-- Witness for C5 with the default `Alt-e` editor keybind. -/
theorem pending_escape_episode_w :
    InputProcessor.process
        { keybinds := [(.alt 101, .openEditor)], pendingEscape := false } [27]
      = (.needMore, { keybinds := [(.alt 101, .openEditor)], pendingEscape := true })
    ∧ InputProcessor.timeoutEscape { keybinds := [], pendingEscape := true }
      = (.passthrough [27], { keybinds := [], pendingEscape := false }) := by
  obtain ⟨h1, h2⟩ := pending_escape_episode [(.alt 101, .openEditor)] (by decide)
  exact ⟨h1, h2 []⟩

/-- Action returned by the keybind loop is one of the configured actions. -/
theorem findMatch_action_mem (kbs : List (Keybind × KeybindAction)) (bytes : List Nat)
    (n : Nat) (a : KeybindAction) (h : findMatch kbs bytes = some (n, a)) :
    a ∈ kbs.map Prod.snd := by
  induction kbs with
  | nil => exact absurd h (by simp [findMatch])
  | cons p rest ih =>
    rcases p with ⟨kb, act⟩
    rw [findMatch] at h
    cases hm : kb.matches bytes with
    | none =>
      rw [hm] at h
      exact List.mem_cons_of_mem _ (ih h)
    | some m =>
      rw [hm] at h
      injection h with h1
      injection h1 with _ h2
      subst h2
      exact List.mem_cons_self _ _

theorem process_action_mem (p : InputProcessor) (bytes : List Nat) (a : KeybindAction)
    (h : (p.process bytes).1 = .action a) : a ∈ p.keybinds.map Prod.snd := by
  unfold InputProcessor.process at h
  by_cases hb : bytes = []
  · rw [if_pos hb] at h
    split at h <;> exact InputResult.noConfusion h
  · rw [if_neg hb] at h
    cases hfm : findMatch p.keybinds (effectiveBytes p bytes) with
    | none =>
      rw [hfm] at h
      split at h
      · rename_i heq
        exact Option.noConfusion heq
      · split at h <;> exact InputResult.noConfusion h
    | some pr =>
      rcases pr with ⟨n, a2⟩
      rw [hfm] at h
      have heq2 : InputResult.action a2 = InputResult.action a := h
      injection heq2 with h2
      subst h2
      exact findMatch_action_mem _ _ _ _ hfm

/-- Claim C8 (the code lacks the claimed `Detach` coverage):
`InputProcessor::new` configures exactly one keybind pair, bound to
`OpenEditor`, so no input ever produces `Action(Detach)` from a processor it
built — even though `lib.rs` line 719 and `main.rs` line 180 match on a
`KeybindAction::Detach` variant that `input.rs` does not declare. -/
theorem input_processor_never_detach (editorKeybind : Keybind) :
    (newInputProcessor editorKeybind).keybinds.map Prod.snd = [.openEditor]
    ∧ ∀ (pending : Bool) (bytes : List Nat),
        (InputProcessor.process
            { newInputProcessor editorKeybind with pendingEscape := pending } bytes).1
          ≠ .action .detach := by
  refine ⟨rfl, fun pending bytes hcontra => ?_⟩
  have hmem := process_action_mem _ _ _ hcontra
  simp [newInputProcessor] at hmem

/-- Witness-style evaluation for C8: the default configuration, fed the
legacy `Alt-d` bytes, does not produce a `Detach` action. -/
theorem input_processor_never_detach_w :
    (InputProcessor.process
        { newInputProcessor (.alt 101) with pendingEscape := false } [27, 100]).1
      ≠ .action .detach :=
  (input_processor_never_detach (.alt 101)).2 false [27, 100]

/-- Claim C9 (refuted as stated — the code tests a path suffix, not the
basename): a bare `$SHELL` value `nu` has basename `nu`, yet the invoked
command is `["nu"]` with no `-l` appended, because `"nu"` does not end with
the string `"/nu"`. -/
theorem shell_basename_nu_counterexample :
    basenameOf (chars "nu") = chars "nu"
    ∧ resolveCommand [] (some (chars "nu")) = [chars "nu"]
    ∧ resolveCommand [] (some (chars "nu")) ≠ [chars "nu", chars "-l"] := by
  refine ⟨by decide, by decide, by decide⟩

/-- Claim C9 (amended): when the start command vector is empty and the
resolved `$SHELL` contains a path separator, the basename rule of the claim
holds — `-l` is appended iff the basename is `nu` or `nushell`, `-i` iff it
is `bash` or `zsh`, and the shell is invoked as-is otherwise; a bare shell
name without `/` is always invoked as-is. -/
theorem shell_flags_by_basename (shell : List Char) (h : '/' ∈ shell) :
    resolveCommand [] (some shell) =
      (if basenameOf shell = chars "nu" ∨ basenameOf shell = chars "nushell" then
        [shell, chars "-l"]
      else if basenameOf shell = chars "bash" ∨ basenameOf shell = chars "zsh" then
        [shell, chars "-i"]
      else [shell]) := by
  have h1 : (chars "/nu" <:+ shell) ↔ basenameOf shell = chars "nu" := by
    rw [show chars "/nu" = '/' :: chars "nu" from rfl,
      suffix_slash_iff (chars "nu") (by decide) shell]
    simp [h]
  have h2 : (chars "/nushell" <:+ shell) ↔ basenameOf shell = chars "nushell" := by
    rw [show chars "/nushell" = '/' :: chars "nushell" from rfl,
      suffix_slash_iff (chars "nushell") (by decide) shell]
    simp [h]
  have h3 : (chars "/bash" <:+ shell) ↔ basenameOf shell = chars "bash" := by
    rw [show chars "/bash" = '/' :: chars "bash" from rfl,
      suffix_slash_iff (chars "bash") (by decide) shell]
    simp [h]
  have h4 : (chars "/zsh" <:+ shell) ↔ basenameOf shell = chars "zsh" := by
    rw [show chars "/zsh" = '/' :: chars "zsh" from rfl,
      suffix_slash_iff (chars "zsh") (by decide) shell]
    simp [h]
  have hstep : resolveCommand [] (some shell) = resolveShellCommand shell := rfl
  rw [hstep]
  simp only [resolveShellCommand, h1, h2, h3, h4]

/-- Witness for C9's amended statement at `$SHELL = /bin/zsh`. -/
theorem shell_flags_by_basename_w :
    resolveCommand [] (some (chars "/bin/zsh")) =
      (if basenameOf (chars "/bin/zsh") = chars "nu"
          ∨ basenameOf (chars "/bin/zsh") = chars "nushell" then
        [chars "/bin/zsh", chars "-l"]
      else if basenameOf (chars "/bin/zsh") = chars "bash"
          ∨ basenameOf (chars "/bin/zsh") = chars "zsh" then
        [chars "/bin/zsh", chars "-i"]
      else [chars "/bin/zsh"]) :=
  shell_flags_by_basename (chars "/bin/zsh") (by decide)

/-- Claim C10: whenever a per-connection handler observes the session-ended
flag, the `SessionEnded` message it emits carries exit code `0` — in fact no
response a handler run ever writes is a `SessionEnded` with a nonzero code,
whatever the shared state (the child's real exit status, computed by
`wait_for_child`, is never consulted). -/
theorem handler_session_ended_code_zero (cid : Nat) (st : ServerState)
    (evs : List ConnEvent) (code : Int)
    (h : Response.sessionEnded code ∈ (handlerRun cid st evs).1) : code = 0 := by
  induction evs generalizing st with
  | nil =>
    by_cases he : st.ended <;> simp [handlerRun, he] at h
    exact h
  | cons ev rest ih =>
    by_cases he : st.ended
    · simp [handlerRun, he] at h
      exact h
    · cases ev with
      | request req =>
        have hne := handleRequest_ne_sessionEnded cid req st code
        simp only [handlerRun, he, if_false] at h
        cases hresp : (handleRequest cid req st).1 <;> rw [hresp] at h hne <;> simp at h
        all_goals
          first
          | exact ih _ h
          | (rcases h with h | h
             · exact absurd (by rw [h]) hne
             · exact ih _ h)
      | invalid =>
        simp only [handlerRun, he, if_false] at h
        exact ih _ h
      | readEof =>
        simp [handlerRun, he] at h
      | bcast data =>
        simp only [handlerRun, he, if_false] at h
        rcases List.mem_cons.mp h with hc | hc
        · exact absurd hc (by simp)
        · exact ih _ hc
      | bcastLagged =>
        simp only [handlerRun, he, if_false] at h
        exact ih _ h
      | bcastClosed =>
        simp [handlerRun, he] at h

/-- Witness for C10 at a concrete ended state and empty trace. -/
theorem handler_session_ended_code_zero_w : (0 : Int) = 0 :=
  handler_session_ended_code_zero 0 { freshState with ended := true } [] 0
    (by simp [handlerRun, freshState])

/-- Claim C6: for every supported key, translating its enhanced CSI-u
encoding yields exactly its legacy byte encoding — a letter key with Ctrl
gives the letter masked with `0x1F` (ESC-prefixed if Alt), with Alt alone
gives ESC plus the letter (upper if Shift else lower), and a plain key gives
the literal byte. -/
theorem translator_inverts_enhanced_encoding (c : Nat) :
    (((65 ≤ c ∧ c ≤ 90) ∨ (97 ≤ c ∧ c ≤ 122)) →
      ∀ shift alt ctrl : Bool,
        translate_csi_u_to_traditional (enhancedEncodeKey c shift alt ctrl)
          = some (legacyEncodeKey c shift alt ctrl,
              (enhancedEncodeKey c shift alt ctrl).length))
    ∧ (c < 128 →
        translate_csi_u_to_traditional (enhancedEncodeKey c false false false)
          = some ([c], (enhancedEncodeKey c false false false).length)) := by
  have hpow : (2 : Nat) ^ 32 = 4294967296 := by norm_num
  constructor
  · intro hl shift alt ctrl
    have hc32 : c < 2 ^ 32 := by rcases hl with ⟨_, h⟩ | ⟨_, h⟩ <;> omega
    rw [translate_encodeKey c shift alt ctrl hc32, csiUEmit_letter c hl shift alt ctrl]
  · intro hc
    have hc32 : c < 2 ^ 32 := by omega
    rw [translate_encodeKey c false false false hc32]
    rw [show modifierValue false false false = 1 from rfl]
    rw [csiUEmit_plain _ _ hc]

/-- Witness for C6 at Ctrl+d (codepoint 100 with the Ctrl modifier) and the
plain Enter key (codepoint 13). -/
theorem translator_inverts_enhanced_encoding_w :
    translate_csi_u_to_traditional (enhancedEncodeKey 100 false false true)
      = some (legacyEncodeKey 100 false false true,
          (enhancedEncodeKey 100 false false true).length)
    ∧ translate_csi_u_to_traditional (enhancedEncodeKey 13 false false false)
      = some ([13], (enhancedEncodeKey 13 false false false).length) :=
  ⟨(translator_inverts_enhanced_encoding 100).1 (by omega) false false true,
   (translator_inverts_enhanced_encoding 13).2 (by omega)⟩

/-- Claim C7 (refuted as stated): the buffer `ESC [ 1 1 7 u` — the CSI-u
encoding of a plain `u` key — translates to the single byte `u` (0x75): the
translator emits bytes differing from the input and the last byte of the
output is `u`, contradicting the claim's second clause. -/
theorem translator_trailing_u_counterexample :
    translate_all_csi_u [27, 91, 49, 49, 55, 117] ≠ [27, 91, 49, 49, 55, 117]
    ∧ (translate_all_csi_u [27, 91, 49, 49, 55, 117]).getLast? = some 117 := by
  decide

/-- Claim C7 (amended): the translator is the identity on any buffer that
contains no `ESC [` pair with a `u` byte somewhere after it (no
`ESC [ ... u` sequence); the original claim's clause that differing output
never ends in the byte `u` is dropped, as forced by the counterexample. -/
theorem translate_all_identity (data : List Nat) (h : hasCsiUPattern data = false) :
    translate_all_csi_u data = data := by
  unfold translate_all_csi_u
  induction data with
  | nil => rfl
  | cons b rest ih =>
    rw [hasCsiUPattern] at h
    by_cases hcond : b = 27 ∧ rest.head? = some 91 ∧ 117 ∈ rest
    · rw [if_pos hcond] at h
      exact absurd h (by simp)
    · rw [if_neg hcond] at h
      rw [translateAllGo]
      by_cases hbc : b = 27 ∧ rest.head? = some 91
      · rw [if_pos hbc]
        have hnou : 117 ∉ b :: rest := by
          intro hmem
          rcases List.mem_cons.mp hmem with hh | hh
          · rw [hbc.1] at hh
            omega
          · exact hcond ⟨hbc.1, hbc.2, hh⟩
        rw [translate_none_of_no_u _ hnou]
        simp only []
        rw [ih h]
      · rw [if_neg hbc]
        rw [ih h]

/-- Witness for C7's amended statement on a plain-text buffer. -/
theorem translate_all_identity_w :
    translate_all_csi_u [104, 101, 108, 108, 111] = [104, 101, 108, 108, 111] :=
  translate_all_identity [104, 101, 108, 108, 111] (by decide)

end Tap
